import Mathlib

/-!
Verification of the dependency-graph construction engine of
`dependency_graph.py` (class `DependencyGraph`).

Paths and file contents are modelled as lists of characters.  Each
definition below is a direct translation of the corresponding Python
function: `filename_normalize`, `filename_extension`, the include
regular expression `#include\s+["<"](.*)[">]` together with
`re.findall`, `find_neighbors`, `create_graph`, and the stateful parts
of `run` (the class-level accumulation of blacklist and group lists).
The graphviz `Digraph` is modelled by the sequence of node statements
and edge statements issued to it.
-/

namespace DepGraph

/-- Characters of a Python string. -/
abbrev Str := List Char

/-- Shorthand turning a Lean string literal into its character list. -/
def str (s : String) : Str := s.toList

/-- Index of the last character satisfying `p`, as Python `str.rfind`
with a character class.  `none` when no character matches. -/
def lastIdxP (p : Char → Bool) : Str → Option Nat
  | [] => none
  | c :: cs =>
    match lastIdxP p cs with
    | some j => some (j + 1)
    | none => if p c then some 0 else none

/-- `os.path.basename` for posix paths: the part after the last slash. -/
def basename (path : Str) : Str :=
  match lastIdxP (fun c => c == '/') path with
  | some i => path.drop (i + 1)
  | none => path

/-- `filename_normalize` from the source: the basename of the path cut
at the final dot (the whole basename when it has no dot). -/
def filename_normalize (path : Str) : Str :=
  let filename := basename path
  match lastIdxP (fun c => c == '.') filename with
  | some i => filename.take i
  | none => filename

/-- `filename_extension` from the source: `path[path.rfind('.'):]`;
when the path has no dot, Python's `path[-1:]` (the last character). -/
def filename_extension (path : Str) : Str :=
  match lastIdxP (fun c => c == '.') path with
  | some i => path.drop i
  | none => path.drop (path.length - 1)

/-- `os.path.dirname` for posix paths: everything before the last
slash, with trailing slashes stripped unless the head is all slashes. -/
def dirname (path : Str) : Str :=
  match lastIdxP (fun c => c == '/') path with
  | none => []
  | some i =>
    let head := path.take (i + 1)
    if head.all (fun c => c == '/') then head
    else (head.reverse.dropWhile (fun c => c == '/')).reverse

/-! ## The include regular expression

`include_regex = re.compile('#include\s+["<"](.*)[">]')`.  The two
character classes are `{'"', '<'}` and `{'"', '>'}`.  A match consists
of the literal `#include`, one or more whitespace characters, one
opening-class character, a greedy capture (`.` does not cross a
newline), and one closing-class character; greediness makes the
closing character the last closing-class character on the line.
`findall` scans left to right and resumes after each match. -/

/-- Python `\s` on ASCII text. -/
def isWS (c : Char) : Bool :=
  c == ' ' || c == '\t' || c == '\n' || c == '\x0b' || c == '\x0c' || c == '\r'

/-- The opening character class `["<"]` of the include pattern. -/
def isOpenDelim (c : Char) : Bool := c == '"' || c == '<'

/-- The closing character class `[">]` of the include pattern. -/
def isCloseDelim (c : Char) : Bool := c == '"' || c == '>'

/-- The literal part of the include pattern. -/
def includeLit : Str := str ("#include")

/-- Strip an exact literal from the front of a string. -/
def stripLit : Str → Str → Option Str
  | [], s => some s
  | _ :: _, [] => none
  | l :: ls, c :: cs => if c = l then stripLit ls cs else none

/-- One attempted match of the include pattern anchored at the start of
`s`: on success, the captured group and the remainder of the input
after the whole match. -/
def includeMatchAt (s : Str) : Option (Str × Str) :=
  match stripLit includeLit s with
  | none => none
  | some rest =>
    if (rest.takeWhile isWS).isEmpty then none
    else
      match rest.dropWhile isWS with
      | [] => none
      | o :: body =>
        if isOpenDelim o then
          match lastIdxP isCloseDelim (body.takeWhile (fun c => c != '\n')) with
          | some j =>
            some ((body.takeWhile (fun c => c != '\n')).take j, body.drop (j + 1))
          | none => none
        else none

/-- `re.findall` scanning: try a match at every position, resuming
after the end of each successful match.  Fueled by the remaining
length (every step consumes at least one character). -/
def includeScanAux : Nat → Str → List Str
  | 0, _ => []
  | _, [] => []
  | fuel + 1, c :: cs =>
    match includeMatchAt (c :: cs) with
    | some (cap, rest) => cap :: includeScanAux fuel rest
    | none => includeScanAux fuel cs

/-- `include_regex.findall(code)`. -/
def include_regex_findall (code : Str) : List Str :=
  includeScanAux code.length code

/-- `find_neighbors` from the source: every capture of the include
pattern, normalized with `filename_normalize`. -/
def find_neighbors (code : Str) : List Str :=
  (include_regex_findall code).map filename_normalize

/-! ## Graph construction (`create_graph`) -/

/-- A discovered file: its path and its (already decoded) text. -/
abbrev FileEntry := Str × Str

/-- A node statement issued to the `Digraph`; `green` marks the
`color='lightgreen'` attribute used for group proxy nodes. -/
structure NodeStmt where
  name : Str
  green : Bool
deriving DecidableEq

/-- An edge statement issued to the `Digraph`: `graph.edge(tail, head,
dir="back", color=color)`.  `back` records the `dir="back"` mark. -/
structure Edge where
  tail : Str
  head : Str
  color : Str
  back : Bool
deriving DecidableEq

/-- Python `set.add` on the model of the `nodes` set (a duplicate-free
list in insertion order). -/
def insertNode (ns : List Str) (n : Str) : List Str :=
  if n ∈ ns then ns else ns ++ [n]

/-- Python dict assignment `d[k] = v`: replace in place or append. -/
def dictUpdate (d : List (Str × Str)) (k v : Str) : List (Str × Str) :=
  match d with
  | [] => [(k, v)]
  | (k0, v0) :: rest =>
    if k0 = k then (k, v) :: rest else (k0, v0) :: dictUpdate rest k v

/-- Python dict lookup. -/
def dictLookup (d : List (Str × Str)) (k : Str) : Option Str :=
  match d with
  | [] => none
  | (k0, v0) :: rest => if k0 = k then some v0 else dictLookup rest k

/-- The proxy node name `f"group - {filename_normalize(group)}"`. -/
def groupName (g : Str) : Str := str ("group - ") ++ filename_normalize g

/-- The registration state of the first loop of `create_graph`: the
`nodes` set, the `proxy_nodes` dict, and the node statements issued so
far. -/
structure RegState where
  nodes : List Str
  proxy : List (Str × Str)
  stmts : List NodeStmt
deriving DecidableEq

/-- Body of `for group in self.groups` for one file: on a prefix match
add the group node, issue its (green) node statement, and map the
file's base name to the group node.  The flag is `in_group`. -/
def regStep (path : Str) (acc : RegState × Bool) (g : Str) : RegState × Bool :=
  if g.isPrefixOf path then
    ({ nodes := insertNode acc.1.nodes (groupName g),
       proxy := dictUpdate acc.1.proxy (filename_normalize path) (groupName g),
       stmts := acc.1.stmts ++ [⟨groupName g, true⟩] }, true)
  else acc

/-- Registration of one file (first loop of `create_graph`): run the
group loop; when no group matched, add the file's own base name to the
`nodes` set. -/
def registerFile (groups : List Str) (st : RegState) (path : Str) : RegState :=
  let res := groups.foldl (regStep path) (st, false)
  if res.2 then res.1
  else { res.1 with nodes := insertNode res.1.nodes (filename_normalize path) }

/-- Registration of every discovered file, in order. -/
def registerFiles (groups : List Str) (files : List FileEntry) : RegState :=
  files.foldl (fun st f => registerFile groups st f.1) ⟨[], [], []⟩

/-- `folder_to_files[dirname(path)].append(path)` on a `defaultdict`:
keys in first-insertion order, values in append order. -/
def addFolder (m : List (Str × List FileEntry)) (k : Str) (f : FileEntry) :
    List (Str × List FileEntry) :=
  match m with
  | [] => [(k, [f])]
  | (k0, fs) :: rest =>
    if k0 = k then (k0, fs ++ [f]) :: rest else (k0, fs) :: addFolder rest k f

/-- The `folder_to_files` map built in the first loop of
`create_graph`. -/
def folderMap (files : List FileEntry) : List (Str × List FileEntry) :=
  files.foldl (fun m f => addFolder m (dirname f.1) f) []

/-- `valid_headers[0]` from the source. -/
def valid_headers_ext : List Str := [str (".h"), str (".hpp")]

/-- `valid_sources[0]` from the source. -/
def valid_sources_ext : List Str := [str (".c"), str (".cc"), str (".cpp")]

/-- The edge colour chosen from the current file's extension:
`black`, overridden to `red` for header extensions and to `blue` for
source extensions (the two sequential `if`s of the source). -/
def edgeColor (ext : Str) : Str :=
  let c := str ("black")
  let c := if ext ∈ valid_headers_ext then str ("red") else c
  let c := if ext ∈ valid_sources_ext then str ("blue") else c
  c

/-- The edge-emission decision for one extracted neighbour name:
skip the file's own node name; a known node gets a direct edge; a base
name merged into a group gets an edge to the proxy; otherwise nothing
is emitted. -/
def edgeFor (nodes : List Str) (proxy : List (Str × Str)) (node color nb : Str) :
    Option Edge :=
  if nb = node then none
  else if nb ∈ nodes then some ⟨node, nb, color, true⟩
  else
    match dictLookup proxy nb with
    | some gname => some ⟨node, gname, color, true⟩
    | none => none

/-- The edge statements issued while processing one file in the second
loop of `create_graph`. -/
def fileEdges (nodes : List Str) (proxy : List (Str × Str)) (f : FileEntry) :
    List Edge :=
  (find_neighbors f.2).filterMap
    (edgeFor nodes proxy (filename_normalize f.1) (edgeColor (filename_extension f.1)))

/-- The `in_group` test of the second loop: some group path is a
string prefix of the folder path. -/
def folderCovered (groups : List Str) (folder : Str) : Bool :=
  groups.any (fun g => g.isPrefixOf folder)

/-- The produced graph: the `strict` flag, the node statements and the
edge statements issued to the `Digraph`, and the final `nodes` set and
`proxy_nodes` dict of `create_graph`. -/
structure GOut where
  strict : Bool
  nodeStmts : List NodeStmt
  edges : List Edge
  nodes : List Str
  proxy_nodes : List (Str × Str)

/-- `create_graph(files, strict)` with the instance's group list:
register every file (nodes, proxy dict, green group statements), then
for every folder not covered by a group rule process its files in
order, issuing each file's plain node statement and its edges. -/
def create_graph (files : List FileEntry) (groups : List Str) (strict : Bool) :
    GOut :=
  let reg := registerFiles groups files
  let fm := (folderMap files).filter (fun kv => ! folderCovered groups kv.1)
  let plainStmts :=
    fm.flatMap (fun kv => kv.2.map (fun f => (⟨filename_normalize f.1, false⟩ : NodeStmt)))
  let es := fm.flatMap (fun kv => kv.2.flatMap (fileEdges reg.nodes reg.proxy))
  ⟨strict, reg.stmts ++ plainStmts, es, reg.nodes, reg.proxy⟩

/-! ## The stateful `run` method

`run` appends the CLI-supplied blacklist and group entries to the
class-level lists `base_blacklist` and `base_groups` (mutated in
place, so they persist across runs), joins them to the root, scans the
tree and calls `create_graph`.  The scan result is supplied here as
the fixed discovered-file list. -/

/-- `os.path.join(a, b)` for posix paths. -/
def path_join (a b : Str) : Str :=
  if b.head? = some '/' then b
  else if a = [] ∨ a.getLast? = some '/' then a ++ b
  else a ++ '/' :: b

/-- The class-level mutable lists of `DependencyGraph`. -/
structure ToolState where
  base_blacklist : List Str
  base_groups : List Str

/-- The CLI arguments consumed by `run` (each `append`/`nargs='+'`
option is a list of lists, flattened by `run`). -/
structure RunArgs where
  blacklist : List (List Str)
  group : List (List Str)
  strict : Bool

/-- One invocation of `run` on a fixed discovered-file list: extend
the class-level lists, join every group to the root, and build the
graph. -/
def runModel (root : Str) (st : ToolState) (args : RunArgs)
    (files : List FileEntry) : ToolState × GOut :=
  let bb := st.base_blacklist ++ args.blacklist.flatten
  let bg := st.base_groups ++ args.group.flatten
  let groups := bg.map (path_join root)
  (⟨bb, bg⟩, create_graph files groups args.strict)

/-- The set of node names of the produced graph: every name given a
node statement plus every edge endpoint (graphviz creates nodes for
edge endpoints as well). -/
def nodeNames (g : GOut) : List Str :=
  g.nodeStmts.map (fun s => s.name) ++ g.edges.flatMap (fun e => [e.tail, e.head])

/-! ## Derived descriptions of the registration loop (proved equal to the source translation below) -/

/-- The effect of one file's group loop on the `nodes` set. -/
def nodesFoldFile (groups : List Str) (path : Str) (ns : List Str) : List Str :=
  groups.foldl
    (fun ns g => if g.isPrefixOf path then insertNode ns (groupName g) else ns) ns

/-- The effect of one file's group loop on the `proxy_nodes` dict. -/
def proxyFoldFile (groups : List Str) (path : Str) (d : List (Str × Str)) :
    List (Str × Str) :=
  groups.foldl
    (fun d g =>
      if g.isPrefixOf path then
        dictUpdate d (filename_normalize path) (groupName g)
      else d) d

/-- The green node statements issued for one file's group loop. -/
def greenStmtsFile (groups : List Str) (path : Str) : List NodeStmt :=
  (groups.filter (fun g => g.isPrefixOf path)).map (fun g => ⟨groupName g, true⟩)

/-- The final value of the `in_group` flag for one file. -/
def groupFlag (groups : List Str) (path : Str) : Bool :=
  groups.any (fun g => g.isPrefixOf path)

/-- The `nodes` contribution of registering one file. -/
def registerFileNodes (groups : List Str) (ns : List Str) (path : Str) : List Str :=
  if groupFlag groups path then nodesFoldFile groups path ns
  else insertNode (nodesFoldFile groups path ns) (filename_normalize path)

/-- The last configured group whose path is a string prefix of `path`
(the group whose proxy wins the `proxy_nodes` assignment). -/
def lastMatch (groups : List Str) (path : Str) : Option Str :=
  groups.foldl (fun acc g => if g.isPrefixOf path then some g else acc) none

/-- Apply an optional winning group to the proxy dict. -/
def applyMatch (path : Str) (acc : Option Str) (d : List (Str × Str)) :
    List (Str × Str) :=
  match acc with
  | some g => dictUpdate d (filename_normalize path) (groupName g)
  | none => d

/-! ## The spec's reading of the include syntax

Modelled from the spec: "a line containing `#include` followed by
whitespace then either a double-quoted string or an angle-bracket-
delimited token; the enclosed text is the include target".  Used only
to compare the specified recognizer against the source's regular
expression. -/

/-- Modelled from the spec: one attempted match of the specified
include syntax anchored at the start of `s` — after `#include` and
whitespace, a double-quoted string or an angle-bracket token closed by
the matching delimiter on the same line, capturing the enclosed
text. -/
def specMatchAt (s : Str) : Option (Str × Str) :=
  match stripLit includeLit s with
  | none => none
  | some rest =>
    if (rest.takeWhile isWS).isEmpty then none
    else
      match rest.dropWhile isWS with
      | '"' :: body =>
        let line := body.takeWhile (fun c => c != '\n')
        let enclosed := line.takeWhile (fun c => c != '"')
        if enclosed.length < line.length then
          some (enclosed, body.drop (enclosed.length + 1))
        else none
      | '<' :: body =>
        let line := body.takeWhile (fun c => c != '\n')
        let enclosed := line.takeWhile (fun c => c != '>')
        if enclosed.length < line.length then
          some (enclosed, body.drop (enclosed.length + 1))
        else none
      | _ => none

/-- Modelled from the spec: scanning with the specified recognizer. -/
def specScanAux : Nat → Str → List Str
  | 0, _ => []
  | _, [] => []
  | fuel + 1, c :: cs =>
    match specMatchAt (c :: cs) with
    | some (cap, rest) => cap :: specScanAux fuel rest
    | none => specScanAux fuel cs

/-- Modelled from the spec: all include targets the specified
recognizer extracts from a text. -/
def spec_includes (code : Str) : List Str :=
  specScanAux code.length code

end DepGraph

/-! ## Concrete scenario inputs -/

namespace DepGraph

/-- Scenario: `a.h` includes `"b.h"`; `b.h` has no includes; one
ungrouped directory. -/
def filesAB : List FileEntry :=
  [(str ("r/a.h"), str ("#include \"b.h\"\n")), (str ("r/b.h"), str (""))]

/-- Scenario: one file under `lib/`, two overlapping group rules. -/
def files_li : List FileEntry := [(str ("lib/x.h"), str (""))]

/-- Overlapping group rules: both `li` and `lib` match `lib/x.h`. -/
def groups_li : List Str := [str ("li"), str ("lib")]

/-- Scenario: the group prefix `r/lib/x` matches the file path
`r/lib/x.h` but not its directory `r/lib`. -/
def files_fx : List FileEntry :=
  [(str ("r/lib/x.h"), str ("#include \"m.h\"\n")), (str ("r/m.h"), str (""))]

/-- Group rule whose prefix cuts into a file name. -/
def groups_fx : List Str := [str ("r/lib/x")]

/-- Scenario: a file literally named `group - lib.h` includes `y.h`,
which is merged into the group proxy of the same name. -/
def files_self : List FileEntry :=
  [(str ("r/lib/y.h"), str ("")), (str ("r/group - lib.h"), str ("#include \"y.h\"\n"))]

/-- The group rule producing the proxy node `group - lib`. -/
def groups_self : List Str := [str ("r/lib")]

/-- Scenario: a grouped directory `r/lib` with an internal include,
and `main.c` outside it including a grouped header. -/
def files_grp : List FileEntry :=
  [(str ("r/lib/x.c"), str ("#include \"y.h\"\n")),
   (str ("r/lib/y.h"), str ("")),
   (str ("r/main.c"), str ("#include \"x.h\"\n"))]

/-- The group rule covering `r/lib`. -/
def groups_grp : List Str := [str ("r/lib")]

/-- Scenario: two group rules with the same base name `lib`; only the
second has a matching file. -/
def files_gcol : List FileEntry := [(str ("b/lib/x.h"), str (""))]

/-- Two groups whose proxy node names collide. -/
def groups_gcol : List Str := [str ("a/lib"), str ("b/lib")]

/-- A line the regular expression matches with mixed delimiters. -/
def mixedLine : Str := str ("#include \"foo.h>")

end DepGraph

/-! ## Basic lemmas about the set/dict models -/

namespace DepGraph

theorem mem_insertNode {ns : List Str} {n a : Str} :
    a ∈ insertNode ns n ↔ a ∈ ns ∨ a = n := by
  by_cases h : n ∈ ns
  · simp only [insertNode, if_pos h]
    constructor
    · exact Or.inl
    · rintro (ha | rfl)
      · exact ha
      · exact h
  · simp [insertNode, if_neg h]

theorem insertNode_of_mem {ns : List Str} {n : Str} (h : n ∈ ns) :
    insertNode ns n = ns := by
  simp [insertNode, h]

theorem dictLookup_update_self (d : List (Str × Str)) (k v : Str) :
    dictLookup (dictUpdate d k v) k = some v := by
  induction d with
  | nil => simp [dictUpdate, dictLookup]
  | cons hd tl ih =>
    obtain ⟨k0, v0⟩ := hd
    by_cases h : k0 = k
    · simp [dictUpdate, h, dictLookup]
    · simp [dictUpdate, h, dictLookup, ih]

theorem dictUpdate_dictUpdate (d : List (Str × Str)) (k v1 v2 : Str) :
    dictUpdate (dictUpdate d k v1) k v2 = dictUpdate d k v2 := by
  induction d with
  | nil => simp [dictUpdate]
  | cons hd tl ih =>
    obtain ⟨k0, v0⟩ := hd
    by_cases h : k0 = k
    · simp [dictUpdate, h]
    · simp [dictUpdate, h, ih]

/-! ## Characterization of the registration loop -/

theorem regFold_spec (groups : List Str) (path : Str) :
    ∀ (st : RegState) (b : Bool),
      groups.foldl (regStep path) (st, b) =
        (⟨nodesFoldFile groups path st.nodes,
          proxyFoldFile groups path st.proxy,
          st.stmts ++ greenStmtsFile groups path⟩,
         b || groupFlag groups path) := by
  induction groups with
  | nil =>
    intro st b
    simp [nodesFoldFile, proxyFoldFile, greenStmtsFile, groupFlag]
  | cons g gs ih =>
    intro st b
    by_cases h : g <+: path
    · rw [List.foldl_cons]
      rw [show regStep path (st, b) g =
          ({ nodes := insertNode st.nodes (groupName g),
             proxy := dictUpdate st.proxy (filename_normalize path) (groupName g),
             stmts := st.stmts ++ [⟨groupName g, true⟩] }, true) by
        simp [regStep, h]]
      rw [ih]
      simp [nodesFoldFile, proxyFoldFile, greenStmtsFile, groupFlag, h,
        List.foldl_cons, List.filter_cons, List.any_cons]
    · have hb : List.isPrefixOf g path = false := by
        rw [← Bool.not_eq_true, List.isPrefixOf_iff_prefix]
        exact h
      rw [List.foldl_cons]
      rw [show regStep path (st, b) g = (st, b) by simp [regStep, h]]
      rw [ih]
      simp [nodesFoldFile, proxyFoldFile, greenStmtsFile, groupFlag, h, hb,
        List.foldl_cons, List.filter_cons, List.any_cons]

theorem registerFile_nodes (groups : List Str) (st : RegState) (path : Str) :
    (registerFile groups st path).nodes = registerFileNodes groups st.nodes path := by
  unfold registerFile registerFileNodes
  rw [regFold_spec]
  by_cases h : groupFlag groups path = true
  · simp [h]
  · simp [h]

theorem registerFile_proxy (groups : List Str) (st : RegState) (path : Str) :
    (registerFile groups st path).proxy = proxyFoldFile groups path st.proxy := by
  unfold registerFile
  rw [regFold_spec]
  by_cases h : groupFlag groups path = true
  · simp [h]
  · simp [h]

theorem registerFile_stmts (groups : List Str) (st : RegState) (path : Str) :
    (registerFile groups st path).stmts = st.stmts ++ greenStmtsFile groups path := by
  unfold registerFile
  rw [regFold_spec]
  by_cases h : groupFlag groups path = true
  · simp [h]
  · simp [h]

theorem registerFiles_fold_nodes (groups : List Str) (files : List FileEntry) :
    ∀ st : RegState,
      (files.foldl (fun st f => registerFile groups st f.1) st).nodes =
        files.foldl (fun ns f => registerFileNodes groups ns f.1) st.nodes := by
  induction files with
  | nil => intro st; rfl
  | cons f fs ih =>
    intro st
    rw [List.foldl_cons, List.foldl_cons, ih, registerFile_nodes]

theorem registerFiles_nodes (groups : List Str) (files : List FileEntry) :
    (registerFiles groups files).nodes =
      files.foldl (fun ns f => registerFileNodes groups ns f.1) [] :=
  registerFiles_fold_nodes groups files ⟨[], [], []⟩

theorem registerFiles_fold_proxy (groups : List Str) (files : List FileEntry) :
    ∀ st : RegState,
      (files.foldl (fun st f => registerFile groups st f.1) st).proxy =
        files.foldl (fun d f => proxyFoldFile groups f.1 d) st.proxy := by
  induction files with
  | nil => intro st; rfl
  | cons f fs ih =>
    intro st
    rw [List.foldl_cons, List.foldl_cons, ih, registerFile_proxy]

theorem registerFiles_proxy (groups : List Str) (files : List FileEntry) :
    (registerFiles groups files).proxy =
      files.foldl (fun d f => proxyFoldFile groups f.1 d) [] :=
  registerFiles_fold_proxy groups files ⟨[], [], []⟩

theorem registerFiles_fold_stmts (groups : List Str) (files : List FileEntry) :
    ∀ st : RegState,
      (files.foldl (fun st f => registerFile groups st f.1) st).stmts =
        st.stmts ++ files.flatMap (fun f => greenStmtsFile groups f.1) := by
  induction files with
  | nil => intro st; simp
  | cons f fs ih =>
    intro st
    rw [List.foldl_cons, ih, registerFile_stmts]
    simp

theorem registerFiles_stmts (groups : List Str) (files : List FileEntry) :
    (registerFiles groups files).stmts =
      files.flatMap (fun f => greenStmtsFile groups f.1) := by
  rw [registerFiles, registerFiles_fold_stmts]
  rfl

end DepGraph

namespace DepGraph

theorem proxyFoldFile_applyMatch (groups : List Str) (path : Str) :
    ∀ (acc : Option Str) (d : List (Str × Str)),
      groups.foldl
          (fun d g =>
            if g.isPrefixOf path then
              dictUpdate d (filename_normalize path) (groupName g)
            else d)
          (applyMatch path acc d) =
        applyMatch path
          (groups.foldl (fun a g => if g.isPrefixOf path then some g else a) acc) d := by
  induction groups with
  | nil => intro acc d; rfl
  | cons g gs ih =>
    intro acc d
    by_cases h : g <+: path
    · have hb : List.isPrefixOf g path = true := List.isPrefixOf_iff_prefix.mpr h
      rw [List.foldl_cons, List.foldl_cons, hb]
      simp only [if_true]
      have hcol :
          dictUpdate (applyMatch path acc d) (filename_normalize path) (groupName g) =
            applyMatch path (some g) d := by
        cases acc with
        | none => rfl
        | some g0 => simp [applyMatch, dictUpdate_dictUpdate]
      rw [hcol]
      exact ih (some g) d
    · have hb : List.isPrefixOf g path = false := by
        rw [← Bool.not_eq_true, List.isPrefixOf_iff_prefix]
        exact h
      rw [List.foldl_cons, List.foldl_cons, hb]
      simp only [Bool.false_eq_true, if_false]
      exact ih acc d

theorem proxyFoldFile_spec (groups : List Str) (path : Str) (d : List (Str × Str)) :
    proxyFoldFile groups path d = applyMatch path (lastMatch groups path) d :=
  proxyFoldFile_applyMatch groups path none d

theorem lastMatch_fold_const {D : List Str} {path : Str}
    (h : D.any (fun g => g.isPrefixOf path) = true) :
    ∀ a b : Option Str,
      D.foldl (fun acc g => if g.isPrefixOf path then some g else acc) a =
        D.foldl (fun acc g => if g.isPrefixOf path then some g else acc) b := by
  induction D with
  | nil => simp at h
  | cons g gs ih =>
    intro a b
    by_cases hg : g <+: path
    · have hb : List.isPrefixOf g path = true := List.isPrefixOf_iff_prefix.mpr hg
      rw [List.foldl_cons, List.foldl_cons, hb]
      simp
    · have hb : List.isPrefixOf g path = false := by
        rw [← Bool.not_eq_true, List.isPrefixOf_iff_prefix]
        exact hg
      have hgs : gs.any (fun g => g.isPrefixOf path) = true := by
        rw [List.any_cons, hb] at h
        simpa using h
      rw [List.foldl_cons, List.foldl_cons, hb]
      simp only [Bool.false_eq_true, if_false]
      exact ih hgs a b

theorem lastMatch_fold_id {D : List Str} {path : Str}
    (h : D.any (fun g => g.isPrefixOf path) = false) :
    ∀ a : Option Str,
      D.foldl (fun acc g => if g.isPrefixOf path then some g else acc) a = a := by
  induction D with
  | nil => intro a; rfl
  | cons g gs ih =>
    intro a
    rw [List.any_cons] at h
    have hb : List.isPrefixOf g path = false := by
      cases hq : List.isPrefixOf g path
      · rfl
      · rw [hq] at h; simp at h
    have hgs : gs.any (fun g => g.isPrefixOf path) = false := by
      rw [hb] at h; simpa using h
    rw [List.foldl_cons, hb]
    simp only [Bool.false_eq_true, if_false]
    exact ih hgs a

theorem lastMatch_dup (P D : List Str) (path : Str) :
    lastMatch (P ++ D ++ D) path = lastMatch (P ++ D) path := by
  unfold lastMatch
  rw [List.foldl_append]
  cases hD : D.any (fun g => g.isPrefixOf path) with
  | true =>
    calc
      D.foldl (fun acc g => if g.isPrefixOf path then some g else acc)
          ((P ++ D).foldl (fun acc g => if g.isPrefixOf path then some g else acc) none) =
          D.foldl (fun acc g => if g.isPrefixOf path then some g else acc)
            (P.foldl (fun acc g => if g.isPrefixOf path then some g else acc) none) :=
        lastMatch_fold_const hD _ _
      _ = (P ++ D).foldl (fun acc g => if g.isPrefixOf path then some g else acc) none :=
        (List.foldl_append _ _ _ _).symm
  | false => exact lastMatch_fold_id hD _

end DepGraph

namespace DepGraph

theorem mem_nodesFoldFile (groups : List Str) (path : Str) :
    ∀ (ns : List Str) (n : Str),
      n ∈ nodesFoldFile groups path ns ↔
        n ∈ ns ∨ ∃ g ∈ groups, g <+: path ∧ n = groupName g := by
  induction groups with
  | nil => intro ns n; simp [nodesFoldFile]
  | cons g gs ih =>
    intro ns n
    by_cases h : g <+: path
    · have hb : List.isPrefixOf g path = true := List.isPrefixOf_iff_prefix.mpr h
      have hstep : nodesFoldFile (g :: gs) path ns =
          nodesFoldFile gs path (insertNode ns (groupName g)) := by
        simp [nodesFoldFile, List.foldl_cons, h]
      rw [hstep, ih, mem_insertNode]
      constructor
      · rintro ((hn | rfl) | ⟨g', hg', hp', rfl⟩)
        · exact Or.inl hn
        · exact Or.inr ⟨g, by simp, h, rfl⟩
        · exact Or.inr ⟨g', by simp [hg'], hp', rfl⟩
      · rintro (hn | ⟨g', hg', hp', rfl⟩)
        · exact Or.inl (Or.inl hn)
        · rcases List.mem_cons.mp hg' with rfl | hg''
          · exact Or.inl (Or.inr rfl)
          · exact Or.inr ⟨g', hg'', hp', rfl⟩
    · have hb : List.isPrefixOf g path = false := by
        rw [← Bool.not_eq_true, List.isPrefixOf_iff_prefix]
        exact h
      have hstep : nodesFoldFile (g :: gs) path ns = nodesFoldFile gs path ns := by
        simp [nodesFoldFile, List.foldl_cons, h]
      rw [hstep, ih]
      constructor
      · rintro (hn | ⟨g', hg', hp', rfl⟩)
        · exact Or.inl hn
        · exact Or.inr ⟨g', by simp [hg'], hp', rfl⟩
      · rintro (hn | ⟨g', hg', hp', rfl⟩)
        · exact Or.inl hn
        · rcases List.mem_cons.mp hg' with rfl | hg''
          · exact absurd hp' h
          · exact Or.inr ⟨g', hg'', hp', rfl⟩

theorem nodesFoldFile_id (D : List Str) (path : Str) :
    ∀ X : List Str, (∀ g ∈ D, g <+: path → groupName g ∈ X) →
      nodesFoldFile D path X = X := by
  induction D with
  | nil => intro X _; rfl
  | cons g gs ih =>
    intro X h
    by_cases hg : g <+: path
    · have hb : List.isPrefixOf g path = true := List.isPrefixOf_iff_prefix.mpr hg
      have hins : insertNode X (groupName g) = X :=
        insertNode_of_mem (h g (by simp) hg)
      have hstep : nodesFoldFile (g :: gs) path X =
          nodesFoldFile gs path X := by
        simp [nodesFoldFile, List.foldl_cons, hg, hins]
      rw [hstep]
      exact ih X (fun g' hg' hp' => h g' (by simp [hg']) hp')
    · have hb : List.isPrefixOf g path = false := by
        rw [← Bool.not_eq_true, List.isPrefixOf_iff_prefix]
        exact hg
      have hstep : nodesFoldFile (g :: gs) path X = nodesFoldFile gs path X := by
        simp [nodesFoldFile, List.foldl_cons, hg]
      rw [hstep]
      exact ih X (fun g' hg' hp' => h g' (by simp [hg']) hp')

theorem nodesFoldFile_append (A B : List Str) (path : Str) (ns : List Str) :
    nodesFoldFile (A ++ B) path ns = nodesFoldFile B path (nodesFoldFile A path ns) :=
  List.foldl_append _ _ _ _

theorem nodesFoldFile_dup (P D : List Str) (path : Str) (ns : List Str) :
    nodesFoldFile (P ++ D ++ D) path ns = nodesFoldFile (P ++ D) path ns := by
  rw [nodesFoldFile_append (P ++ D) D]
  apply nodesFoldFile_id
  intro g hgD hp
  rw [mem_nodesFoldFile]
  exact Or.inr ⟨g, List.mem_append.mpr (Or.inr hgD), hp, rfl⟩

theorem groupFlag_dup (P D : List Str) (path : Str) :
    groupFlag (P ++ D ++ D) path = groupFlag (P ++ D) path := by
  simp [groupFlag, List.any_append, Bool.or_assoc]

theorem folderCovered_dup (P D : List Str) (folder : Str) :
    folderCovered (P ++ D ++ D) folder = folderCovered (P ++ D) folder := by
  simp [folderCovered, List.any_append, Bool.or_assoc]

theorem registerFileNodes_dup (P D : List Str) (ns : List Str) (path : Str) :
    registerFileNodes (P ++ D ++ D) ns path = registerFileNodes (P ++ D) ns path := by
  unfold registerFileNodes
  rw [groupFlag_dup, nodesFoldFile_dup]

theorem proxyFoldFile_dup (P D : List Str) (path : Str) (d : List (Str × Str)) :
    proxyFoldFile (P ++ D ++ D) path d = proxyFoldFile (P ++ D) path d := by
  rw [proxyFoldFile_spec, proxyFoldFile_spec, lastMatch_dup]

theorem registerFiles_nodes_dup (P D : List Str) (files : List FileEntry) :
    (registerFiles (P ++ D ++ D) files).nodes = (registerFiles (P ++ D) files).nodes := by
  rw [registerFiles_nodes, registerFiles_nodes]
  have hfun : (fun (ns : List Str) (f : FileEntry) => registerFileNodes (P ++ D ++ D) ns f.1) =
      fun (ns : List Str) (f : FileEntry) => registerFileNodes (P ++ D) ns f.1 := by
    funext ns f
    exact registerFileNodes_dup P D ns f.1
  rw [hfun]

theorem registerFiles_proxy_dup (P D : List Str) (files : List FileEntry) :
    (registerFiles (P ++ D ++ D) files).proxy = (registerFiles (P ++ D) files).proxy := by
  rw [registerFiles_proxy, registerFiles_proxy]
  have hfun : (fun (d : List (Str × Str)) (f : FileEntry) => proxyFoldFile (P ++ D ++ D) f.1 d) =
      fun (d : List (Str × Str)) (f : FileEntry) => proxyFoldFile (P ++ D) f.1 d := by
    funext d f
    exact proxyFoldFile_dup P D f.1 d
  rw [hfun]

theorem mem_greenStmtsFile {groups : List Str} {path : Str} {s : NodeStmt} :
    s ∈ greenStmtsFile groups path ↔
      ∃ g ∈ groups, g <+: path ∧ s = ⟨groupName g, true⟩ := by
  simp only [greenStmtsFile, List.mem_map, List.mem_filter]
  constructor
  · rintro ⟨g, ⟨hg, hp⟩, rfl⟩
    exact ⟨g, hg, List.isPrefixOf_iff_prefix.mp hp, rfl⟩
  · rintro ⟨g, hg, hp, rfl⟩
    exact ⟨g, ⟨hg, List.isPrefixOf_iff_prefix.mpr hp⟩, rfl⟩

theorem registerFiles_stmts_dup (P D : List Str) (files : List FileEntry) (s : NodeStmt) :
    s ∈ (registerFiles (P ++ D ++ D) files).stmts ↔
      s ∈ (registerFiles (P ++ D) files).stmts := by
  rw [registerFiles_stmts, registerFiles_stmts]
  simp only [List.mem_flatMap]
  constructor
  · rintro ⟨f, hf, hs⟩
    rcases mem_greenStmtsFile.mp hs with ⟨g, hg, hp, rfl⟩
    refine ⟨f, hf, mem_greenStmtsFile.mpr ⟨g, ?_, hp, rfl⟩⟩
    rcases List.mem_append.mp hg with hg' | hg'
    · exact hg'
    · exact List.mem_append.mpr (Or.inr hg')
  · rintro ⟨f, hf, hs⟩
    rcases mem_greenStmtsFile.mp hs with ⟨g, hg, hp, rfl⟩
    exact ⟨f, hf, mem_greenStmtsFile.mpr ⟨g, List.mem_append.mpr (Or.inl hg), hp, rfl⟩⟩

end DepGraph

namespace DepGraph

theorem mem_addFolder_iff (m : List (Str × List FileEntry)) (k : Str) (f : FileEntry)
    (k0 : Str) (x : FileEntry) :
    (∃ kv ∈ addFolder m k f, kv.1 = k0 ∧ x ∈ kv.2) ↔
      (∃ kv ∈ m, kv.1 = k0 ∧ x ∈ kv.2) ∨ (k0 = k ∧ x = f) := by
  induction m with
  | nil =>
    simp only [addFolder]
    aesop
  | cons hd tl ih =>
    obtain ⟨k1, fs⟩ := hd
    by_cases h : k1 = k
    · subst h
      simp only [addFolder, if_pos rfl]
      aesop
    · simp only [addFolder, if_neg h]
      rw [List.exists_mem_cons_iff, List.exists_mem_cons_iff, ih]
      exact or_assoc.symm

theorem mem_folderMap_iff (files : List FileEntry) (k : Str) (x : FileEntry) :
    (∃ kv ∈ folderMap files, kv.1 = k ∧ x ∈ kv.2) ↔
      (x ∈ files ∧ dirname x.1 = k) := by
  suffices h : ∀ acc : List (Str × List FileEntry),
      (∃ kv ∈ files.foldl (fun m f => addFolder m (dirname f.1) f) acc,
          kv.1 = k ∧ x ∈ kv.2) ↔
        (∃ kv ∈ acc, kv.1 = k ∧ x ∈ kv.2) ∨ (x ∈ files ∧ dirname x.1 = k) by
    have h0 := h []
    rw [folderMap]
    rw [h0]
    simp
  induction files with
  | nil =>
    intro acc
    simp
  | cons f fs ih =>
    intro acc
    rw [List.foldl_cons, ih (addFolder acc (dirname f.1) f), mem_addFolder_iff]
    constructor
    · rintro ((hacc | ⟨rfl, rfl⟩) | ⟨hfs, hd⟩)
      · exact Or.inl hacc
      · exact Or.inr ⟨List.mem_cons_self _ _, rfl⟩
      · exact Or.inr ⟨List.mem_cons_of_mem _ hfs, hd⟩
    · rintro (hacc | ⟨hmem, hd⟩)
      · exact Or.inl (Or.inl hacc)
      · rcases List.mem_cons.mp hmem with rfl | hfs
        · exact Or.inl (Or.inr ⟨hd.symm, rfl⟩)
        · exact Or.inr ⟨hfs, hd⟩

theorem mem_create_graph_edges {files : List FileEntry} {groups : List Str}
    {strict : Bool} {e : Edge} :
    e ∈ (create_graph files groups strict).edges ↔
      ∃ f ∈ files, folderCovered groups (dirname f.1) = false ∧
        e ∈ fileEdges (registerFiles groups files).nodes
              (registerFiles groups files).proxy f := by
  simp only [create_graph, List.mem_flatMap, List.mem_filter]
  constructor
  · rintro ⟨kv, ⟨hkv, hcov⟩, f, hf, he⟩
    have hm := (mem_folderMap_iff files kv.1 f).mp ⟨kv, hkv, rfl, hf⟩
    refine ⟨f, hm.1, ?_, he⟩
    rw [hm.2]
    simpa using hcov
  · rintro ⟨f, hf, hcov, he⟩
    obtain ⟨kv, hkv, hk, hfkv⟩ :=
      (mem_folderMap_iff files (dirname f.1) f).mpr ⟨hf, rfl⟩
    refine ⟨kv, ⟨hkv, ?_⟩, f, hfkv, he⟩
    rw [hk]
    simpa using hcov

theorem mem_create_graph_nodeStmts {files : List FileEntry} {groups : List Str}
    {strict : Bool} {s : NodeStmt} :
    s ∈ (create_graph files groups strict).nodeStmts ↔
      s ∈ (registerFiles groups files).stmts ∨
        ∃ f ∈ files, folderCovered groups (dirname f.1) = false ∧
          s = ⟨filename_normalize f.1, false⟩ := by
  simp only [create_graph, List.mem_append, List.mem_flatMap, List.mem_filter,
    List.mem_map]
  constructor
  · rintro (hs | ⟨kv, ⟨hkv, hcov⟩, f, hf, rfl⟩)
    · exact Or.inl hs
    · have hm := (mem_folderMap_iff files kv.1 f).mp ⟨kv, hkv, rfl, hf⟩
      refine Or.inr ⟨f, hm.1, ?_, rfl⟩
      rw [hm.2]
      simpa using hcov
  · rintro (hs | ⟨f, hf, hcov, rfl⟩)
    · exact Or.inl hs
    · obtain ⟨kv, hkv, hk, hfkv⟩ :=
        (mem_folderMap_iff files (dirname f.1) f).mpr ⟨hf, rfl⟩
      refine Or.inr ⟨kv, ⟨hkv, ?_⟩, f, hfkv, rfl⟩
      rw [hk]
      simpa using hcov

theorem edgeFor_eq_some {nodes : List Str} {proxy : List (Str × Str)}
    {node color nb : Str} {e : Edge}
    (h : edgeFor nodes proxy node color nb = some e) :
    nb ≠ node ∧ e.tail = node ∧ e.color = color ∧ e.back = true ∧
      ((e.head = nb ∧ nb ∈ nodes) ∨
        (nb ∉ nodes ∧ dictLookup proxy nb = some e.head)) := by
  unfold edgeFor at h
  by_cases h1 : nb = node
  · rw [if_pos h1] at h
    exact absurd h (by simp)
  · rw [if_neg h1] at h
    by_cases h2 : nb ∈ nodes
    · rw [if_pos h2] at h
      rcases Option.some_injective _ h with rfl
      exact ⟨h1, rfl, rfl, rfl, Or.inl ⟨rfl, h2⟩⟩
    · rw [if_neg h2] at h
      cases hl : dictLookup proxy nb with
      | none => rw [hl] at h; exact absurd h (by simp)
      | some g =>
        rw [hl] at h
        cases h
        exact ⟨h1, rfl, rfl, rfl, Or.inr ⟨h2, rfl⟩⟩

theorem mem_fileEdges {nodes : List Str} {proxy : List (Str × Str)}
    {f : FileEntry} {e : Edge} :
    e ∈ fileEdges nodes proxy f ↔
      ∃ nb ∈ find_neighbors f.2,
        edgeFor nodes proxy (filename_normalize f.1)
          (edgeColor (filename_extension f.1)) nb = some e := by
  simp [fileEdges, List.mem_filterMap]

end DepGraph

namespace DepGraph

theorem create_graph_dup (files : List FileEntry) (P D : List Str) (strict : Bool) :
    (create_graph files (P ++ D ++ D) strict).edges =
        (create_graph files (P ++ D) strict).edges ∧
      ∀ s : NodeStmt,
        s ∈ (create_graph files (P ++ D ++ D) strict).nodeStmts ↔
          s ∈ (create_graph files (P ++ D) strict).nodeStmts := by
  have hnodes := registerFiles_nodes_dup P D files
  have hproxy := registerFiles_proxy_dup P D files
  have hfm : (folderMap files).filter (fun kv => ! folderCovered (P ++ D ++ D) kv.1) =
      (folderMap files).filter (fun kv => ! folderCovered (P ++ D) kv.1) :=
    List.filter_congr (fun kv _ => by rw [folderCovered_dup])
  constructor
  · simp only [create_graph]
    rw [hfm, hnodes, hproxy]
  · intro s
    simp only [create_graph, List.mem_append]
    rw [hfm]
    constructor
    · rintro (hs | hs)
      · exact Or.inl ((registerFiles_stmts_dup P D files s).mp hs)
      · exact Or.inr hs
    · rintro (hs | hs)
      · exact Or.inl ((registerFiles_stmts_dup P D files s).mpr hs)
      · exact Or.inr hs

theorem nodeNames_congr {g1 g2 : GOut} (he : g2.edges = g1.edges)
    (hs : ∀ s : NodeStmt, s ∈ g2.nodeStmts ↔ s ∈ g1.nodeStmts) :
    ∀ n : Str, n ∈ nodeNames g2 ↔ n ∈ nodeNames g1 := by
  intro n
  simp only [nodeNames, List.mem_append, List.mem_map, he]
  constructor
  · rintro (⟨s, hsm, rfl⟩ | h)
    · exact Or.inl ⟨s, (hs s).mp hsm, rfl⟩
    · exact Or.inr h
  · rintro (⟨s, hsm, rfl⟩ | h)
    · exact Or.inl ⟨s, (hs s).mpr hsm, rfl⟩
    · exact Or.inr h

end DepGraph

/-! ## Claim theorems -/

namespace DepGraph

/-- C1 (counterexample): in the scenario with `a.h` including `"b.h"`
and `b.h` empty, the emitted edge set is exactly the single ordered
pair `(a, b)` — includer first — so it is not `{(b, a)}` as the claim
states. -/
theorem C1_counterexample :
    (create_graph filesAB [] false).edges =
        [⟨str ("a"), str ("b"), str ("red"), true⟩] ∧
      (⟨str ("b"), str ("a"), str ("red"), true⟩ : Edge) ∉
        (create_graph filesAB [] false).edges := by
  constructor
  · decide
  · decide

/-- C1 (amended): every emitted edge records the ordered pair
(includer, resolved target): its first component is the including
file's node, its second the included target (directly or via the group
proxy), it carries the includer's extension colour and the reversed
display mark; in the scenario the edge set is exactly `{(a, b)}` with
`a`'s header colour and the reversed mark. -/
theorem C1_theorem :
    (∀ (files : List FileEntry) (groups : List Str) (strict : Bool) (e : Edge),
      e ∈ (create_graph files groups strict).edges →
        ∃ f ∈ files, e.tail = filename_normalize f.1 ∧ e.back = true ∧
          e.color = edgeColor (filename_extension f.1) ∧
          ∃ nb ∈ find_neighbors f.2, nb ≠ e.tail ∧
            (e.head = nb ∨
              dictLookup (registerFiles groups files).proxy nb = some e.head)) ∧
      (create_graph filesAB [] false).edges =
        [⟨str ("a"), str ("b"), str ("red"), true⟩] := by
  constructor
  · intro files groups strict e he
    rcases mem_create_graph_edges.mp he with ⟨f, hf, hcov, hfe⟩
    rcases mem_fileEdges.mp hfe with ⟨nb, hnb, hsome⟩
    rcases edgeFor_eq_some hsome with ⟨hne, htail, hcolor, hback, hres⟩
    refine ⟨f, hf, htail, hback, hcolor, nb, hnb, ?_, ?_⟩
    · rw [htail]
      exact hne
    · rcases hres with ⟨hh, _⟩ | ⟨_, hh⟩
      · exact Or.inl hh
      · exact Or.inr hh
  · decide

/-- C1 (witness): the general part of the amended claim applied to the
scenario's single edge. -/
theorem C1_witness :
    ∃ f ∈ filesAB,
      (⟨str ("a"), str ("b"), str ("red"), true⟩ : Edge).tail =
          filename_normalize f.1 ∧
        (⟨str ("a"), str ("b"), str ("red"), true⟩ : Edge).back = true ∧
        (⟨str ("a"), str ("b"), str ("red"), true⟩ : Edge).color =
          edgeColor (filename_extension f.1) ∧
        ∃ nb ∈ find_neighbors f.2,
          nb ≠ (⟨str ("a"), str ("b"), str ("red"), true⟩ : Edge).tail ∧
            ((⟨str ("a"), str ("b"), str ("red"), true⟩ : Edge).head = nb ∨
              dictLookup (registerFiles [] filesAB).proxy nb =
                some (⟨str ("a"), str ("b"), str ("red"), true⟩ : Edge).head) :=
  C1_theorem.1 filesAB [] false ⟨str ("a"), str ("b"), str ("red"), true⟩ (by decide)

/-- C2 (counterexample): with the overlapping group rules `li` and
`lib` (in that order) both matching `lib/x.h`, the base name `x` is
mapped to the proxy of the *last* matching group `lib`, not to the
proxy of the first matching group `li`. -/
theorem C2_counterexample :
    dictLookup (registerFiles groups_li files_li).proxy (str ("x")) =
        some (str ("group - lib")) ∧
      dictLookup (registerFiles groups_li files_li).proxy (str ("x")) ≠
        some (groupName (str ("li"))) := by
  constructor
  · decide
  · decide

/-- C2 (amended): when several configured group rules match a file
path, the rule occurring *last* in the configured order is
authoritative: the file's base name is mapped to that group's proxy
node. -/
theorem C2_theorem (groups : List Str) (p c : Str) (g : Str)
    (h : lastMatch groups p = some g) :
    dictLookup (registerFiles groups [(p, c)]).proxy (filename_normalize p) =
      some (groupName g) := by
  rw [registerFiles_proxy]
  show dictLookup (proxyFoldFile groups p []) (filename_normalize p) =
    some (groupName g)
  rw [proxyFoldFile_spec, h]
  show dictLookup (dictUpdate [] (filename_normalize p) (groupName g))
      (filename_normalize p) = some (groupName g)
  exact dictLookup_update_self [] _ _

/-- C2 (witness): the amended claim at the overlapping rules `li`,
`lib` and the file `lib/x.h`. -/
theorem C2_witness :
    dictLookup (registerFiles groups_li [(str ("lib/x.h"), str (""))]).proxy
        (filename_normalize (str ("lib/x.h"))) =
      some (groupName (str ("lib"))) :=
  C2_theorem groups_li (str ("lib/x.h")) (str ("")) (str ("lib")) (by decide)

/-- C3 (counterexample): the group prefix `r/lib/x` matches the file
path `r/lib/x.h` but not its directory `r/lib`; the file is merged
into the proxy for name resolution, yet it still appears in the output
graph as its own plain node `x` and emits its own edge `(x, m)`. -/
theorem C3_counterexample :
    (str ("r/lib/x")) <+: (str ("r/lib/x.h")) ∧
      (⟨str ("x"), false⟩ : NodeStmt) ∈ (create_graph files_fx groups_fx false).nodeStmts ∧
      (⟨str ("x"), str ("m"), str ("red"), true⟩ : Edge) ∈
        (create_graph files_fx groups_fx false).edges := by
  refine ⟨?_, ?_, ?_⟩
  · decide
  · decide
  · decide

/-- C3 (amended): a file whose path matches a group prefix is never
added to the node set under its own base name during registration (the
registration step only contributes group proxy names); but the file is
excluded from edge extraction (and from a plain node statement of its
own) only when its containing *directory* matches a group prefix —
every plain node statement comes from a file in an uncovered
directory. -/
theorem C3_theorem :
    (∀ (groups : List Str) (st : RegState) (p n : Str),
        groupFlag groups p = true →
        n ∈ (registerFile groups st p).nodes →
        n ∈ st.nodes ∨ ∃ g ∈ groups, g <+: p ∧ n = groupName g) ∧
      (∀ (files : List FileEntry) (groups : List Str) (strict : Bool) (s : NodeStmt),
        s ∈ (create_graph files groups strict).nodeStmts → s.green = false →
        ∃ f ∈ files, s.name = filename_normalize f.1 ∧
          folderCovered groups (dirname f.1) = false) := by
  constructor
  · intro groups st p n hflag hn
    rw [registerFile_nodes] at hn
    unfold registerFileNodes at hn
    rw [if_pos hflag] at hn
    exact (mem_nodesFoldFile groups p st.nodes n).mp hn
  · intro files groups strict s hs hgreen
    rcases mem_create_graph_nodeStmts.mp hs with h | ⟨f, hf, hcov, rfl⟩
    · exfalso
      rw [registerFiles_stmts] at h
      rcases List.mem_flatMap.mp h with ⟨f, _, hg⟩
      rcases mem_greenStmtsFile.mp hg with ⟨g, _, _, rfl⟩
      simp at hgreen
    · exact ⟨f, hf, rfl, hcov⟩

/-- C3 (witness): the second part of the amended claim applied to the
plain node statement `x` of the counterexample scenario. -/
theorem C3_witness :
    ∃ f ∈ files_fx,
      (⟨str ("x"), false⟩ : NodeStmt).name = filename_normalize f.1 ∧
        folderCovered groups_fx (dirname f.1) = false :=
  C3_theorem.2 files_fx groups_fx false ⟨str ("x"), false⟩ (by decide) (by decide)

/-- C4 (counterexample): the file `r/group - lib.h` (node name
`group - lib`) includes `y.h`, whose base name is merged into the
proxy node also called `group - lib`; the builder emits the self-edge
`(group - lib, group - lib)`. -/
theorem C4_counterexample :
    (⟨str ("group - lib"), str ("group - lib"), str ("red"), true⟩ : Edge) ∈
      (create_graph files_self groups_self false).edges := by
  decide

/-- C4 (amended): a target whose normalized name equals the includer's
own node name is always skipped, so a direct edge is never a
self-edge; an edge of the form `(X, X)` can only arise through proxy
resolution, from a target whose name differs from the includer's node
name but whose proxy node has the same name. -/
theorem C4_theorem (files : List FileEntry) (groups : List Str) (strict : Bool)
    (e : Edge) (he : e ∈ (create_graph files groups strict).edges)
    (hs : e.tail = e.head) :
    ∃ nb, nb ≠ e.tail ∧
      dictLookup (registerFiles groups files).proxy nb = some e.head := by
  rcases mem_create_graph_edges.mp he with ⟨f, hf, hcov, hfe⟩
  rcases mem_fileEdges.mp hfe with ⟨nb, hnb, hsome⟩
  rcases edgeFor_eq_some hsome with ⟨hne, htail, _, _, hres⟩
  rcases hres with ⟨hh, _⟩ | ⟨_, hh⟩
  · exfalso
    have hx : nb = filename_normalize f.1 := by
      rw [← hh, ← hs]
      exact htail
    exact hne hx
  · refine ⟨nb, ?_, hh⟩
    rw [htail]
    exact hne

/-- C4 (witness): the amended claim applied to the self-edge of the
counterexample scenario. -/
theorem C4_witness :
    ∃ nb, nb ≠ (⟨str ("group - lib"), str ("group - lib"), str ("red"), true⟩ : Edge).tail ∧
      dictLookup (registerFiles groups_self files_self).proxy nb =
        some (⟨str ("group - lib"), str ("group - lib"), str ("red"), true⟩ : Edge).head :=
  C4_theorem files_self groups_self false
    ⟨str ("group - lib"), str ("group - lib"), str ("red"), true⟩ (by decide) (by decide)

/-- C5: every emitted edge originates from processing a file whose
containing directory is *not* covered by any group rule; hence no edge
comes from includes written inside a directory matching a group
prefix, whatever their targets. -/
theorem C5_theorem (files : List FileEntry) (groups : List Str) (strict : Bool)
    (e : Edge) (he : e ∈ (create_graph files groups strict).edges) :
    ∃ f ∈ files, folderCovered groups (dirname f.1) = false ∧
      e ∈ fileEdges (registerFiles groups files).nodes
            (registerFiles groups files).proxy f :=
  mem_create_graph_edges.mp he

/-- C5 (witness): the claim applied to the only edge of the grouped
`lib` scenario (the edge from `main` to the group proxy). -/
theorem C5_witness :
    ∃ f ∈ files_grp, folderCovered groups_grp (dirname f.1) = false ∧
      (⟨str ("main"), str ("group - lib"), str ("blue"), true⟩ : Edge) ∈
        fileEdges (registerFiles groups_grp files_grp).nodes
          (registerFiles groups_grp files_grp).proxy f :=
  C5_theorem files_grp groups_grp false
    ⟨str ("main"), str ("group - lib"), str ("blue"), true⟩ (by decide)

/-- C6: a target name that is neither in the `nodes` set nor a key of
the `proxy_nodes` dict produces no edge, and dropping it from a
neighbour list leaves the emitted edges of the remaining neighbours
unchanged — graph construction continues normally and no error
arises. -/
theorem C6_theorem (nodes : List Str) (proxy : List (Str × Str))
    (node color nb : Str) (l1 l2 : List Str)
    (h1 : nb ∉ nodes) (h2 : dictLookup proxy nb = none) :
    edgeFor nodes proxy node color nb = none ∧
      (l1 ++ nb :: l2).filterMap (edgeFor nodes proxy node color) =
        (l1 ++ l2).filterMap (edgeFor nodes proxy node color) := by
  have hnone : edgeFor nodes proxy node color nb = none := by
    unfold edgeFor
    by_cases h : nb = node
    · rw [if_pos h]
    · rw [if_neg h, if_neg h1, h2]
  refine ⟨hnone, ?_⟩
  simp [List.filterMap_append, List.filterMap_cons, hnone]

/-- C6 (witness): the claim at a concrete unresolved target `z`. -/
theorem C6_witness :
    edgeFor [str ("a")] [] (str ("m")) (str ("red")) (str ("z")) = none ∧
      ([str ("a")] ++ str ("z") :: [str ("a")]).filterMap
          (edgeFor [str ("a")] [] (str ("m")) (str ("red"))) =
        ([str ("a")] ++ [str ("a")]).filterMap
          (edgeFor [str ("a")] [] (str ("m")) (str ("red"))) :=
  C6_theorem [str ("a")] [] (str ("m")) (str ("red")) (str ("z"))
    [str ("a")] [str ("a")] (by decide) (by decide)

/-- C8: running the builder twice with the same arguments on the same
discovered-file list — including the class-level accumulation of the
group and blacklist lists that `run` performs — yields the same edge
set (indeed the same edge list) and the same set of node names. -/
theorem C8_theorem (root : Str) (st : ToolState) (args : RunArgs)
    (files : List FileEntry) :
    ((runModel root ((runModel root st args files).1) args files).2).edges =
        ((runModel root st args files).2).edges ∧
      ∀ n : Str,
        n ∈ nodeNames ((runModel root ((runModel root st args files).1) args files).2) ↔
          n ∈ nodeNames ((runModel root st args files).2) := by
  have h1 : (runModel root st args files).2 =
      create_graph files
        (st.base_groups.map (path_join root) ++
          args.group.flatten.map (path_join root)) args.strict := by
    simp [runModel, List.map_append]
  have h2 : (runModel root ((runModel root st args files).1) args files).2 =
      create_graph files
        (st.base_groups.map (path_join root) ++
            args.group.flatten.map (path_join root) ++
          args.group.flatten.map (path_join root)) args.strict := by
    simp [runModel, List.map_append, List.append_assoc]
  rw [h1, h2]
  have hd := create_graph_dup files (st.base_groups.map (path_join root))
    (args.group.flatten.map (path_join root)) args.strict
  exact ⟨hd.1, nodeNames_congr hd.1 hd.2⟩

/-- C8 (witness): the edge-list equality of the second run at a
concrete state, argument set and file list. -/
theorem C8_witness :
    ((runModel (str ("r")) ((runModel (str ("r")) ⟨[], []⟩
          ⟨[], [[str ("lib")]], false⟩ files_grp).1)
        ⟨[], [[str ("lib")]], false⟩ files_grp).2).edges =
      ((runModel (str ("r")) ⟨[], []⟩ ⟨[], [[str ("lib")]], false⟩ files_grp).2).edges :=
  (C8_theorem (str ("r")) ⟨[], []⟩ ⟨[], [[str ("lib")]], false⟩ files_grp).1

/-- C9: with a single group rule `G`, a file path `p` is merged into
`G`'s proxy (its base name mapped to `G`'s proxy node) exactly when
`p` literally starts with the string `G` — no path-segment boundary is
checked, so the group path `lib` also captures `lib2/x.h`. -/
theorem C9_theorem (G p c : Str) :
    (dictLookup (registerFiles [G] [(p, c)]).proxy (filename_normalize p) =
        some (groupName G) ↔ G <+: p) ∧
      (str ("lib")) <+: (str ("lib2/x.h")) ∧
      dictLookup (registerFiles [str ("lib")] [(str ("lib2/x.h"), str (""))]).proxy
          (str ("x")) = some (str ("group - lib")) := by
  refine ⟨?_, by decide, by decide⟩
  have hfold : (registerFiles [G] [(p, c)]).proxy = proxyFoldFile [G] p [] := by
    rw [registerFiles_proxy]
    rfl
  by_cases h : G <+: p
  · constructor
    · intro _
      exact h
    · intro _
      rw [hfold, proxyFoldFile_spec]
      have hl : lastMatch [G] p = some G := by
        simp [lastMatch, h]
      rw [hl]
      show dictLookup (dictUpdate [] (filename_normalize p) (groupName G))
          (filename_normalize p) = some (groupName G)
      exact dictLookup_update_self [] _ _
  · constructor
    · intro hlook
      exfalso
      rw [hfold, proxyFoldFile_spec] at hlook
      have hl : lastMatch [G] p = none := by
        simp [lastMatch, h]
      rw [hl] at hlook
      exact absurd hlook (by simp [applyMatch, dictLookup])
    · intro hp
      exact absurd hp h

/-- C9 (witness): the iff instantiated at the group path `lib` and the
sibling-directory file `lib2/x.h`. -/
theorem C9_witness :
    dictLookup (registerFiles [str ("lib")] [(str ("lib2/x.h"), str (""))]).proxy
        (filename_normalize (str ("lib2/x.h"))) = some (groupName (str ("lib"))) :=
  (C9_theorem (str ("lib")) (str ("lib2/x.h")) (str (""))).1.mpr (by decide)

/-- C10 (counterexample): the group `a/lib` matches no discovered file
(the only file lives under `b/lib`), yet the node set contains the
proxy node id `group - lib` of `a/lib`, because the same-named group
`b/lib` has a matching file. -/
theorem C10_counterexample :
    ¬ ((str ("a/lib")) <+: (str ("b/lib/x.h"))) ∧
      (⟨str ("group - lib"), true⟩ : NodeStmt) ∈
        (create_graph files_gcol groups_gcol false).nodeStmts ∧
      groupName (str ("a/lib")) = str ("group - lib") := by
  refine ⟨?_, ?_, ?_⟩
  · decide
  · decide
  · decide

/-- C10 (amended): a proxy node statement with name `n` is issued
exactly when some configured group `g` with `groupName g = n` has a
matching discovered file; in particular a group with zero matching
files contributes no proxy node unless another group with the same
base name has a matching file. -/
theorem C10_theorem (files : List FileEntry) (groups : List Str) (strict : Bool)
    (n : Str) :
    (⟨n, true⟩ : NodeStmt) ∈ (create_graph files groups strict).nodeStmts ↔
      ∃ g ∈ groups, n = groupName g ∧ ∃ f ∈ files, g <+: f.1 := by
  rw [mem_create_graph_nodeStmts]
  constructor
  · rintro (hs | ⟨f, hf, _, hfalse⟩)
    · rw [registerFiles_stmts] at hs
      rcases List.mem_flatMap.mp hs with ⟨f, hf, hg⟩
      rcases mem_greenStmtsFile.mp hg with ⟨g, hgm, hp, heq⟩
      injection heq with he1 he2
      exact ⟨g, hgm, he1, f, hf, hp⟩
    · exfalso
      injection hfalse with he1 he2
      exact Bool.noConfusion he2
  · rintro ⟨g, hg, rfl, f, hf, hp⟩
    refine Or.inl ?_
    rw [registerFiles_stmts]
    exact List.mem_flatMap.mpr ⟨f, hf, mem_greenStmtsFile.mpr ⟨g, hg, hp, rfl⟩⟩

/-- C10 (witness): the amended claim applied to the colliding proxy
node name of the counterexample scenario. -/
theorem C10_witness :
    ∃ g ∈ groups_gcol, (str ("group - lib")) = groupName g ∧
      ∃ f ∈ files_gcol, g <+: f.1 :=
  (C10_theorem files_gcol groups_gcol false (str ("group - lib"))).mp (by decide)

end DepGraph

/-! ## Lemmas about the include matcher -/

namespace DepGraph

theorem stripLit_eq_some {l : Str} : ∀ {s r : Str}, stripLit l s = some r ↔ s = l ++ r := by
  induction l with
  | nil =>
    intro s r
    simp [stripLit]
  | cons a l ih =>
    intro s r
    cases s with
    | nil => simp [stripLit]
    | cons c cs =>
      by_cases h : c = a
      · subst h
        simp [stripLit, ih]
      · simp [stripLit, h]

theorem takeWhile_prepend {p : Char → Bool} {ws : Str} {o : Char} (t : Str)
    (hws : ∀ c ∈ ws, p c = true) (ho : p o = false) :
    (ws ++ o :: t).takeWhile p = ws ∧ (ws ++ o :: t).dropWhile p = o :: t := by
  induction ws with
  | nil => simp [List.takeWhile_cons, List.dropWhile_cons, ho]
  | cons c cs ih =>
    have hc : p c = true := hws c (by simp)
    have ih' := ih (fun x hx => hws x (by simp [hx]))
    simp [List.takeWhile_cons, List.dropWhile_cons, hc, ih'.1, ih'.2]

theorem takeWhile_all_append {p : Char → Bool} (xs ys : Str)
    (h : ∀ x ∈ xs, p x = true) :
    (xs ++ ys).takeWhile p = xs ++ ys.takeWhile p := by
  induction xs with
  | nil => simp
  | cons c cs ih =>
    have hc : p c = true := h c (by simp)
    have ih' := ih (fun x hx => h x (by simp [hx]))
    simp [List.takeWhile_cons, hc, ih']

theorem takeWhile_dropWhile_nil (p : Char → Bool) (l : Str) :
    (l.dropWhile p).takeWhile p = [] := by
  induction l with
  | nil => rfl
  | cons c cs ih =>
    cases hc : p c with
    | true => simp [List.dropWhile_cons, hc, ih]
    | false => simp [List.dropWhile_cons, hc, List.takeWhile_cons]

theorem lastIdxP_eq_none {p : Char → Bool} : ∀ {l : Str},
    lastIdxP p l = none ↔ ∀ c ∈ l, p c = false := by
  intro l
  induction l with
  | nil => simp [lastIdxP]
  | cons c cs ih =>
    simp only [lastIdxP, List.mem_cons]
    cases hcs : lastIdxP p cs with
    | some j =>
      constructor
      · intro h
        exact Option.noConfusion h
      · intro h
        have hnone : lastIdxP p cs = none := ih.mpr (fun x hx => h x (Or.inr hx))
        rw [hcs] at hnone
        exact Option.noConfusion hnone
    | none =>
      cases hc : p c with
      | true =>
        constructor
        · intro h
          simp at h
        · intro h
          exact absurd (h c (Or.inl rfl)) (by simp [hc])
      | false =>
        constructor
        · intro _ x hx
          rcases hx with rfl | hx
          · exact hc
          · exact (ih.mp hcs) x hx
        · intro _
          simp

theorem lastIdxP_append_some {p : Char → Bool} {l2 : Str} {j : Nat}
    (h : lastIdxP p l2 = some j) : ∀ l1 : Str,
    lastIdxP p (l1 ++ l2) = some (l1.length + j) := by
  intro l1
  induction l1 with
  | nil => simpa using h
  | cons c cs ih =>
    have hstep : lastIdxP p ((c :: cs) ++ l2) = some (cs.length + j + 1) := by
      simp [lastIdxP, ih]
    rw [hstep]
    simp only [Option.some.injEq, List.length_cons]
    omega

theorem lastIdxP_eq_some_spec {p : Char → Bool} : ∀ {l : Str} {j : Nat},
    lastIdxP p l = some j →
    ∃ l1 cl l2, l = l1 ++ cl :: l2 ∧ l1.length = j ∧ p cl = true ∧
      ∀ x ∈ l2, p x = false := by
  intro l
  induction l with
  | nil => intro j h; exact Option.noConfusion h
  | cons c cs ih =>
    intro j h
    simp only [lastIdxP] at h
    cases hcs : lastIdxP p cs with
    | some j' =>
      rw [hcs] at h
      have hj : j = j' + 1 := (Option.some_injective _ h).symm
      rcases ih hcs with ⟨l1, cl, l2, hdec, hlen, hp, hrest⟩
      refine ⟨c :: l1, cl, l2, by simp [hdec], ?_, hp, hrest⟩
      simp [hlen, hj]
    | none =>
      rw [hcs] at h
      by_cases hc : p c = true
      · rw [if_pos hc] at h
        have hj : j = 0 := (Option.some_injective _ h).symm
        exact ⟨[], c, cs, rfl, by simp [hj], hc, lastIdxP_eq_none.mp hcs⟩
      · rw [if_neg hc] at h
        exact Option.noConfusion h

theorem isOpenDelim_not_ws {o : Char} (h : isOpenDelim o = true) : isWS o = false := by
  rcases (by simpa [isOpenDelim] using h : o = '"' ∨ o = '<') with rfl | rfl <;> decide

theorem isCloseDelim_not_newline {c : Char} (h : isCloseDelim c = true) :
    (c != '\n') = true := by
  rcases (by simpa [isCloseDelim] using h : c = '"' ∨ c = '>') with rfl | rfl <;> decide

end DepGraph

namespace DepGraph

theorem includeMatchAt_spec (s cap rest : Str) :
    includeMatchAt s = some (cap, rest) ↔
      ∃ ws o cl, s = includeLit ++ ws ++ o :: (cap ++ cl :: rest) ∧
        ws ≠ [] ∧ (∀ c ∈ ws, isWS c = true) ∧ isOpenDelim o = true ∧
        isCloseDelim cl = true ∧ (∀ c ∈ cap, (c != '\n') = true) ∧
        ∀ c ∈ rest.takeWhile (fun c => c != '\n'), isCloseDelim c = false := by
  constructor
  · intro h
    unfold includeMatchAt at h
    split at h
    · exact Option.noConfusion h
    · rename_i rest0 hstrip
      split at h
      · exact Option.noConfusion h
      · rename_i hemp
        split at h
        · exact Option.noConfusion h
        · rename_i o body hdrop
          split at h
          · rename_i hopen
            split at h
            · rename_i j hlast
              have hpair : (body.takeWhile (fun c => c != '\n')).take j = cap ∧
                  body.drop (j + 1) = rest := by
                have hp := Option.some_injective _ h
                exact ⟨congrArg Prod.fst hp, congrArg Prod.snd hp⟩
              rcases lastIdxP_eq_some_spec hlast with ⟨l1, cl, l2, hdec, hlen, hcl, hl2⟩
              set tdrop := body.dropWhile (fun c => c != '\n') with htd
              have hcap : cap = l1 := by
                rw [← hpair.1, hdec, ← hlen, List.take_left]
              have hbody : body = (l1 ++ cl :: l2) ++ tdrop := by
                conv_lhs => rw [← List.takeWhile_append_dropWhile (fun c => c != '\n') body]
                rw [hdec]
              have hrest : rest = l2 ++ tdrop := by
                rw [← hpair.2]
                conv_lhs => rw [hbody]
                have hsplit : (l1 ++ cl :: l2) ++ tdrop = (l1 ++ [cl]) ++ (l2 ++ tdrop) := by
                  simp
                rw [hsplit]
                have hlen2 : j + 1 = (l1 ++ [cl]).length := by
                  simp [hlen]
                rw [hlen2, List.drop_left]
              have hws0 : rest0 = rest0.takeWhile isWS ++ o :: body := by
                conv_lhs => rw [← List.takeWhile_append_dropWhile isWS rest0]
                rw [hdrop]
              have hs : s = includeLit ++ rest0 := stripLit_eq_some.mp hstrip
              refine ⟨rest0.takeWhile isWS, o, cl, ?_, ?_, ?_, hopen, hcl, ?_, ?_⟩
              · rw [hs]
                conv_lhs => rw [hws0]
                rw [hcap, hrest, hbody]
                simp
              · intro hnil
                exact hemp (by rw [hnil]; rfl)
              · intro c hc
                exact List.mem_takeWhile_imp hc
              · intro c hcmem
                rw [hcap] at hcmem
                have hcm : c ∈ body.takeWhile (fun c => c != '\n') := by
                  rw [hdec]
                  exact List.mem_append.mpr (Or.inl hcmem)
                exact List.mem_takeWhile_imp (p := fun c => c != '\n') hcm
              · intro c hcmem
                rw [hrest] at hcmem
                have hl2nl : ∀ x ∈ l2, (x != '\n') = true := by
                  intro x hx
                  have hxm : x ∈ body.takeWhile (fun c => c != '\n') := by
                    rw [hdec]
                    exact List.mem_append.mpr (Or.inr (List.mem_cons_of_mem _ hx))
                  exact List.mem_takeWhile_imp (p := fun c => c != '\n') hxm
                rw [takeWhile_all_append _ _ hl2nl, htd, takeWhile_dropWhile_nil,
                  List.append_nil] at hcmem
                exact hl2 c hcmem
            · exact Option.noConfusion h
          · exact Option.noConfusion h
  · rintro ⟨ws, o, cl, hs, hwne, hwall, hopen, hclose, hcapnl, hrestnc⟩
    have hstrip : stripLit includeLit s = some (ws ++ o :: (cap ++ cl :: rest)) :=
      stripLit_eq_some.mpr (by rw [hs]; simp)
    have htw := takeWhile_prepend (cap ++ cl :: rest) hwall
      (isOpenDelim_not_ws hopen)
    have hempf : ws.isEmpty = false := by
      cases ws with
      | nil => exact absurd rfl hwne
      | cons a l => rfl
    have hlinepre : ∀ x ∈ cap ++ [cl], (x != '\n') = true := by
      intro x hx
      rcases List.mem_append.mp hx with hx | hx
      · exact hcapnl x hx
      · rcases List.mem_singleton.mp hx with rfl
        exact isCloseDelim_not_newline hclose
    have hline : (cap ++ cl :: rest).takeWhile (fun c => c != '\n') =
        cap ++ cl :: rest.takeWhile (fun c => c != '\n') := by
      have ha := takeWhile_all_append (cap ++ [cl]) rest hlinepre
      simpa using ha
    have hlast : lastIdxP isCloseDelim
        ((cap ++ cl :: rest).takeWhile (fun c => c != '\n')) = some cap.length := by
      rw [hline]
      have h0 : lastIdxP isCloseDelim (cl :: rest.takeWhile (fun c => c != '\n')) =
          some 0 := by
        have hnone : lastIdxP isCloseDelim (rest.takeWhile (fun c => c != '\n')) = none :=
          lastIdxP_eq_none.mpr hrestnc
        simp [lastIdxP, hnone, hclose]
      have hap := lastIdxP_append_some h0 cap
      simpa using hap
    have htake : ((cap ++ cl :: rest).takeWhile (fun c => c != '\n')).take cap.length =
        cap := by
      rw [hline]
      exact List.take_left cap (cl :: rest.takeWhile (fun c => c != '\n'))
    have hdrop2 : (cap ++ cl :: rest).drop (cap.length + 1) = rest := by
      have hsplit : cap ++ cl :: rest = (cap ++ [cl]) ++ rest := by simp
      rw [hsplit]
      have hlen : cap.length + 1 = (cap ++ [cl]).length := by simp
      rw [hlen, List.drop_left]
    unfold includeMatchAt
    rw [hstrip]
    simp only [htw.1, htw.2, hempf, Bool.false_eq_true, if_false, hopen, if_true,
      hlast, htake, hdrop2]

end DepGraph

namespace DepGraph

theorem filename_normalize_append (d n : Str) (h : '/' ∉ n) :
    filename_normalize (d ++ '/' :: n) = filename_normalize n := by
  have hnone : lastIdxP (fun c => c == '/') n = none :=
    lastIdxP_eq_none.mpr (fun c hc => by
      have hcne : c ≠ '/' := fun hq => h (hq ▸ hc)
      simp [hcne])
  have hb2 : basename n = n := by
    unfold basename
    rw [hnone]
  have hlast : lastIdxP (fun c => c == '/') (d ++ '/' :: n) = some d.length := by
    have h0 : lastIdxP (fun c => c == '/') ('/' :: n) = some 0 := by
      simp [lastIdxP, hnone]
    have hap := lastIdxP_append_some h0 d
    simpa using hap
  have hb1 : basename (d ++ '/' :: n) = n := by
    unfold basename
    rw [hlast]
    show (d ++ '/' :: n).drop (d.length + 1) = n
    have hsplit : d ++ '/' :: n = (d ++ ['/']) ++ n := by simp
    rw [hsplit]
    have hlen : d.length + 1 = (d ++ ['/']).length := by simp
    rw [hlen, List.drop_left]
  unfold filename_normalize
  rw [hb1, hb2]

/-- C7 (counterexample): the line `#include "foo.h>` contains neither
a double-quoted string nor an angle-bracket token, yet the source's
regular expression matches it (mixed delimiters) and captures `foo.h`;
the spec's recognizer extracts nothing from it. -/
theorem C7_counterexample :
    include_regex_findall mixedLine = [str ("foo.h")] ∧
      spec_includes mixedLine = [] ∧
      find_neighbors mixedLine = [str ("foo")] :=
  ⟨by decide, by decide, by decide⟩

/-- C7 (amended): a match of the include pattern at a position is
recognized exactly when the text continues with `#include`, one or
more whitespace characters, an opening character from the class
`{", <}`, and a later closing character from the class `{", >}` on the
same line — the delimiters need not correspond, and the capture
extends greedily to the last closing-class character of the line;
every captured target is then reduced by `filename_normalize`, the
same normalization applied to file paths, so an include of a path
ending in `foo.h` agrees with the node of a file path ending in
`foo.h`. -/
theorem C7_theorem :
    (∀ s cap rest : Str,
      includeMatchAt s = some (cap, rest) ↔
        ∃ ws o cl, s = includeLit ++ ws ++ o :: (cap ++ cl :: rest) ∧
          ws ≠ [] ∧ (∀ c ∈ ws, isWS c = true) ∧ isOpenDelim o = true ∧
          isCloseDelim cl = true ∧ (∀ c ∈ cap, (c != '\n') = true) ∧
          ∀ c ∈ rest.takeWhile (fun c => c != '\n'), isCloseDelim c = false) ∧
      (∀ d n : Str, '/' ∉ n →
        filename_normalize (d ++ '/' :: n) = filename_normalize n) ∧
      ∀ code : Str,
        find_neighbors code = (include_regex_findall code).map filename_normalize :=
  ⟨includeMatchAt_spec, filename_normalize_append, fun _ => rfl⟩

/-- C7 (witness): the normalization-agreement part of the amended
claim at the directory `dir/sub` and the target `foo.h`. -/
theorem C7_witness :
    filename_normalize (str ("dir/sub") ++ '/' :: str ("foo.h")) =
      filename_normalize (str ("foo.h")) :=
  C7_theorem.2.1 (str ("dir/sub")) (str ("foo.h")) (by decide)

end DepGraph
